import Mathlib

/-!
Verification of the lexical scanner in `src/parser/lexer.rs` of md-to-tui.

The Rust lexer is shallowly embedded: bytes are `Nat` values, the input buffer
is a `List Nat`, the mutable `Lexer` struct becomes a record passed explicitly,
and the two `while` loops (`read_indent`, `read_heading`) become fuel-bounded
recursions whose fuel (`input.length + 2`) provably exceeds the number of
iterations (each iteration advances `read_position` by one, and the loops stop
as soon as the sentinel `0` is produced past the end of the buffer).
`String::from_utf8_lossy` on a run of `INDENT_CHARS` bytes (all ASCII) is the
identity on those bytes, so `Indent` carries the raw byte list.
-/

namespace MdToTui

/-- Byte values of the Rust constant `INDENT_CHARS`
(`b"abcdefghijklmnopqrstuvwxyzABCDEFGHIJKLMNOPQRSTUVWXYZ1234567890,\"'"`). -/
def INDENT_CHARS : List Nat :=
  (List.range 26).map (fun i => 97 + i) ++
  (List.range 26).map (fun i => 65 + i) ++
  [49, 50, 51, 52, 53, 54, 55, 56, 57, 48] ++
  [44, 34, 39]

/-- The `Token` enum of the source, byte/count payloads as `Nat`, text payload
as the list of raw bytes captured from the buffer. The misspelled constructor
`Undersocre` is the source's own name. -/
inductive Token where
  | Heading (n : Nat)
  | Indent (s : List Nat)
  | WhiteSpace
  | Tab
  | EOL
  | EOF
  | LeftSquare
  | RightSquare
  | LeftParen
  | RightParen
  | LeftAngle
  | RightAngle
  | Dot
  | Dash
  | Equal
  | Plus
  | Asterisk
  | Undersocre
  | BackTick
  | BackSlash
  | Slash
  | Colon
  | SemiColon
  | Illegal (b : Nat)
  deriving DecidableEq

/-- Decode a list of ASCII byte values into a string (identity embedding of
`String::from_utf8_lossy` on the ASCII runs the lexer produces). -/
def bytesToString (s : List Nat) : String :=
  String.mk (s.map (fun b => Char.ofNat b))

/-- The `Display` implementation for `Token`: it always writes the prefix
`"Token -> "` first, then either the payload form (`Heading`, `Indent`,
`Illegal`) or the fixed variant name. -/
def Token.display (t : Token) : String :=
  "Token -> " ++
    match t with
    | Token.Heading i => "Heading: #" ++ toString i
    | Token.Indent s => "Indent: " ++ bytesToString s ++ " "
    | Token.Illegal b => "Illegal: " ++ toString b ++ " "
    | Token.WhiteSpace => "WhiteSpace"
    | Token.Tab => "Tab"
    | Token.EOL => "EOL"
    | Token.EOF => "EOF"
    | Token.LeftSquare => "LeftSquare"
    | Token.RightSquare => "RightSquare"
    | Token.LeftParen => "LeftParen"
    | Token.RightParen => "RightParen"
    | Token.LeftAngle => "LeftAngle"
    | Token.RightAngle => "RightAngle"
    | Token.Dot => "Dot"
    | Token.Dash => "Dash"
    | Token.Equal => "Equal"
    | Token.Plus => "Plus"
    | Token.Asterisk => "Asterisk"
    | Token.Undersocre => "Undersocre"
    | Token.BackTick => "BackTick"
    | Token.BackSlash => "BackSlash"
    | Token.Slash => "Slash"
    | Token.Colon => "Colon"
    | Token.SemiColon => "SemiColon"

/-- The byte span a token was produced from: the classification map of
`next_token` read backwards.  `LeftParen` comes from byte `41` (`)`) and
`RightParen` from byte `40` (`(`) because the source's match arms map them
that way; `EOF` is produced from the NUL byte. -/
def Token.span : Token → List Nat
  | Token.Heading n => List.replicate n 35
  | Token.Indent s => s
  | Token.WhiteSpace => [32]
  | Token.Tab => [9]
  | Token.EOL => [10]
  | Token.EOF => [0]
  | Token.LeftSquare => [91]
  | Token.RightSquare => [93]
  | Token.LeftParen => [41]
  | Token.RightParen => [40]
  | Token.LeftAngle => [60]
  | Token.RightAngle => [62]
  | Token.Dot => [46]
  | Token.Dash => [45]
  | Token.Equal => [61]
  | Token.Plus => [43]
  | Token.Asterisk => [42]
  | Token.Undersocre => [95]
  | Token.BackTick => [96]
  | Token.BackSlash => [92]
  | Token.Slash => [47]
  | Token.Colon => [58]
  | Token.SemiColon => [59]
  | Token.Illegal b => [b]

/-- The only error variant the lexer produces (`Error::LexerErr`). -/
inductive Error where
  | LexerErr (msg : String)
  deriving DecidableEq

/-- The `Lexer` struct: two cursor positions, the current byte, and the
owned input buffer. -/
structure Lexer where
  position : Nat
  read_position : Nat
  ch : Nat
  input : List Nat
  deriving DecidableEq

/-- `Lexer::new`: everything zeroed, empty buffer. -/
def Lexer.new : Lexer := ⟨0, 0, 0, []⟩

/-- The byte `read_char` would load at index `i`: the buffer byte when in
range, the NUL sentinel `0` past the end. -/
def chAt (input : List Nat) (i : Nat) : Nat :=
  if i ≥ input.length then 0 else input.getD i 0

/-- `Lexer::read_char`: load the byte at `read_position` (NUL sentinel when
past the end), move `position` there, and advance `read_position`. -/
def Lexer.read_char (l : Lexer) : Lexer :=
  { l with
      ch := chAt l.input l.read_position,
      position := l.read_position,
      read_position := l.read_position + 1 }

/-- The `while INDENT_CHARS.contains(&self.ch)` loop of `read_indent`,
fuel-bounded. -/
def readIndentLoop : Nat → Lexer → Lexer
  | 0, l => l
  | fuel + 1, l =>
    if INDENT_CHARS.contains l.ch then readIndentLoop fuel l.read_char else l

/-- `Lexer::read_indent`: consume the maximal run of `INDENT_CHARS` bytes and
return an `Indent` token carrying the slice `input[pos..position]`. -/
def Lexer.read_indent (l : Lexer) : Token × Lexer :=
  let pos := l.position
  let lf := readIndentLoop (l.input.length + 2) l
  (Token.Indent ((lf.input.drop pos).take (lf.position - pos)), lf)

/-- The `while self.ch == b'#'` loop of `read_heading`, fuel-bounded. -/
def readHeadingLoop : Nat → Lexer → Lexer
  | 0, l => l
  | fuel + 1, l =>
    if l.ch = 35 then readHeadingLoop fuel l.read_char else l

/-- `Lexer::read_heading`: consume the maximal run of `#` bytes and return
`Heading(count)`. -/
def Lexer.read_heading (l : Lexer) : Token × Lexer :=
  let pos := l.position
  let lf := readHeadingLoop (l.input.length + 2) l
  (Token.Heading (lf.position - pos), lf)

/-- `Lexer::next_token`: classify the current byte following the source's
match arms in order (note `)` maps to `LeftParen` and `(` to `RightParen`,
exactly as in the source).  Single-byte tokens advance via `read_char`;
`#` and word-class bytes delegate to the run readers; an unmatched byte
becomes `Illegal` and is turned into `Error::LexerErr` without advancing. -/
def Lexer.next_token (l : Lexer) : Except Error (Token × Lexer) :=
  if l.ch = 32 then Except.ok (Token.WhiteSpace, l.read_char)
  else if l.ch = 91 then Except.ok (Token.LeftSquare, l.read_char)
  else if l.ch = 93 then Except.ok (Token.RightSquare, l.read_char)
  else if l.ch = 41 then Except.ok (Token.LeftParen, l.read_char)
  else if l.ch = 40 then Except.ok (Token.RightParen, l.read_char)
  else if l.ch = 60 then Except.ok (Token.LeftAngle, l.read_char)
  else if l.ch = 62 then Except.ok (Token.RightAngle, l.read_char)
  else if l.ch = 45 then Except.ok (Token.Dash, l.read_char)
  else if l.ch = 43 then Except.ok (Token.Plus, l.read_char)
  else if l.ch = 61 then Except.ok (Token.Equal, l.read_char)
  else if l.ch = 35 then Except.ok l.read_heading
  else if INDENT_CHARS.contains l.ch then Except.ok l.read_indent
  else if l.ch = 0 then Except.ok (Token.EOF, l.read_char)
  else if l.ch = 10 then Except.ok (Token.EOL, l.read_char)
  else if l.ch = 46 then Except.ok (Token.Dot, l.read_char)
  else if l.ch = 95 then Except.ok (Token.Undersocre, l.read_char)
  else if l.ch = 96 then Except.ok (Token.BackTick, l.read_char)
  else if l.ch = 92 then Except.ok (Token.BackSlash, l.read_char)
  else if l.ch = 42 then Except.ok (Token.Asterisk, l.read_char)
  else if l.ch = 58 then Except.ok (Token.Colon, l.read_char)
  else if l.ch = 59 then Except.ok (Token.SemiColon, l.read_char)
  else if l.ch = 47 then Except.ok (Token.Slash, l.read_char)
  else if l.ch = 9 then Except.ok (Token.Tab, l.read_char)
  else Except.error (Error.LexerErr ((Token.Illegal l.ch).display))

/-- The `while !(self.position >= self.input.len())` loop of `Lexer::parse`,
fuel-bounded; collects the pushed tokens and returns the final lexer state. -/
def parseLoop : Nat → Lexer → Except Error (List Token × Lexer)
  | 0, l => Except.ok ([], l)
  | fuel + 1, l =>
    if l.position ≥ l.input.length then Except.ok ([], l)
    else
      match l.next_token with
      | Except.error e => Except.error e
      | Except.ok (t, l') =>
        match parseLoop fuel l' with
        | Except.error e => Except.error e
        | Except.ok (ts, lf) => Except.ok (t :: ts, lf)

/-- `Lexer::parse`: store `"\n" + input` as the buffer (the cursor fields are
NOT reset — exactly as in the source), discard one warm-up `next_token`, then
run the token loop. -/
def Lexer.parse (l : Lexer) (input : List Nat) : Except Error (List Token × Lexer) :=
  let l0 : Lexer := { l with input := 10 :: input }
  match l0.next_token with
  | Except.error e => Except.error e
  | Except.ok (_, l1) => parseLoop (l1.input.length + 1) l1

/-- The public entry point: parse with a fresh `Lexer` (as in the source's
tests) and keep the token list. -/
def tokenize (input : List Nat) : Except Error (List Token) :=
  match Lexer.new.parse input with
  | Except.error e => Except.error e
  | Except.ok (ts, _) => Except.ok ts

/-- The recognized alphabet: the bytes of the single-byte match arms of
`next_token` (space, brackets, parens, angles, dash, plus, equal, `#`, NUL,
newline, dot, underscore, backtick, backslash, asterisk, colon, semicolon,
slash, tab) together with the word-class bytes `INDENT_CHARS`. -/
def legalByte (b : Nat) : Bool :=
  ([32, 91, 93, 41, 40, 60, 62, 45, 43, 61, 35,
    0, 10, 46, 95, 96, 92, 42, 58, 59, 47, 9] : List Nat).contains b
  || INDENT_CHARS.contains b

/-- Cursor invariant maintained after every `read_char`: `read_position` is
one past `position`, `ch` caches the buffer byte at `position` (NUL sentinel
past the end), and `position` never exceeds the buffer length. -/
def Inv (l : Lexer) : Prop :=
  l.read_position = l.position + 1 ∧
  l.ch = chAt l.input l.position ∧
  l.position ≤ l.input.length

/-- Run-maximality of a token list whose spans tile `input` starting at
`start`: every `Indent` is non-empty and the buffer byte just past its span
is not word-class; every `Heading` has a positive count and the byte just
past its span is not `#`. -/
def MaxAt (input : List Nat) (start : Nat) (ts : List Token) : Prop :=
  ∀ pre t suf, ts = pre ++ t :: suf →
    (∀ s, t = Token.Indent s → s ≠ [] ∧
      INDENT_CHARS.contains
        (chAt input (start + (((pre.map Token.span).flatten).length + s.length))) = false) ∧
    (∀ n, t = Token.Heading n → 1 ≤ n ∧
      chAt input (start + (((pre.map Token.span).flatten).length + n)) ≠ 35)

/-! ## Basic facts about the cursor -/

lemma contains_iff (l : List Nat) (a : Nat) : l.contains a = true ↔ a ∈ l :=
  List.elem_iff

lemma read_char_position (l : Lexer) : l.read_char.position = l.read_position := rfl

lemma read_char_read_position (l : Lexer) :
    l.read_char.read_position = l.read_position + 1 := rfl

lemma read_char_ch (l : Lexer) : l.read_char.ch = chAt l.input l.read_position := rfl

lemma read_char_input (l : Lexer) : l.read_char.input = l.input := rfl

lemma chAt_of_ge (input : List Nat) (i : Nat) (h : input.length ≤ i) :
    chAt input i = 0 := by
  simp [chAt, h]

lemma chAt_of_lt (input : List Nat) (i : Nat) (h : i < input.length) :
    chAt input i = input.getD i 0 := by
  simp [chAt]
  omega

lemma lt_of_chAt_ne_zero (input : List Nat) (i : Nat) (h : chAt input i ≠ 0) :
    i < input.length := by
  by_contra hge
  exact h (chAt_of_ge input i (by omega))

lemma inv_read_char (l : Lexer) (h : l.read_position ≤ l.input.length) :
    Inv l.read_char := by
  refine ⟨rfl, rfl, h⟩

lemma zero_not_indent : INDENT_CHARS.contains 0 = false := by decide

/-- Under the invariant, a state whose current byte is non-NUL is strictly
inside the buffer. -/
lemma inv_pos_lt (l : Lexer) (hInv : Inv l) (h : l.ch ≠ 0) :
    l.position < l.input.length := by
  apply lt_of_chAt_ne_zero
  rw [← hInv.2.1]
  exact h

/-! ## Slice lemmas -/

lemma length_slice (input : List Nat) (a b : Nat) (hab : a ≤ b) (hb : b ≤ input.length) :
    ((input.drop a).take (b - a)).length = b - a := by
  simp [List.length_take, List.length_drop]
  omega

lemma slice_append_drop (input : List Nat) (a b : Nat) (hab : a ≤ b) :
    (input.drop a).take (b - a) ++ input.drop b = input.drop a := by
  have h := List.take_append_drop (b - a) (input.drop a)
  rw [List.drop_drop] at h
  rw [show a + (b - a) = b by omega] at h
  exact h

lemma slice_single (input : List Nat) (a : Nat) (ha : a < input.length) :
    (input.drop a).take 1 = [input.getD a 0] := by
  rw [List.drop_eq_getElem_cons ha, List.take_succ_cons, List.take_zero,
    List.getD_eq_getElem input 0 ha]

lemma slice_eq_replicate (input : List Nat) (a b c : Nat) (hb : b ≤ input.length)
    (h : ∀ i, a ≤ i → i < b → input.getD i 0 = c) :
    (input.drop a).take (b - a) = List.replicate (b - a) c := by
  rcases le_or_lt a b with hab | hab
  · rw [List.eq_replicate_iff]
    constructor
    · exact length_slice input a b hab hb
    · intro x hx
      rw [List.mem_iff_getElem] at hx
      obtain ⟨n, hn, hget⟩ := hx
      have hlen : ((input.drop a).take (b - a)).length = b - a :=
        length_slice input a b hab hb
      rw [hlen] at hn
      have hna : a + n < input.length := by omega
      rw [List.getElem_take, List.getElem_drop] at hget
      rw [← hget, ← List.getD_eq_getElem input 0 hna]
      exact h (a + n) (by omega) (by omega)
  · rw [show b - a = 0 by omega]
    simp

/-! ## Loop specifications -/

lemma readIndentLoop_of_not (fuel : Nat) (l : Lexer)
    (h : INDENT_CHARS.contains l.ch = false) : readIndentLoop fuel l = l := by
  cases fuel with
  | zero => rfl
  | succ fuel =>
    have hn : ¬ (INDENT_CHARS.contains l.ch = true) := by
      rw [h]
      exact Bool.false_ne_true
    simp only [readIndentLoop, if_neg hn]

lemma readIndentLoop_spec (fuel : Nat) :
    ∀ l : Lexer, Inv l → l.input.length + 1 - l.position ≤ fuel →
    Inv (readIndentLoop fuel l) ∧
    (readIndentLoop fuel l).input = l.input ∧
    l.position ≤ (readIndentLoop fuel l).position ∧
    INDENT_CHARS.contains (readIndentLoop fuel l).ch = false ∧
    (∀ i, l.position ≤ i → i < (readIndentLoop fuel l).position →
      INDENT_CHARS.contains (chAt l.input i) = true) := by
  induction fuel with
  | zero =>
    intro l hInv hfuel
    exact absurd hfuel (by have := hInv.2.2; omega)
  | succ fuel ih =>
    intro l hInv hfuel
    by_cases hg : INDENT_CHARS.contains l.ch = true
    · have hch0 : l.ch ≠ 0 := by
        intro h0
        rw [h0, zero_not_indent] at hg
        exact Bool.false_ne_true hg
      have hlt : l.position < l.input.length := inv_pos_lt l hInv hch0
      have hInv' : Inv l.read_char := inv_read_char l (by rw [hInv.1]; omega)
      have hpos' : l.read_char.position = l.position + 1 := by
        rw [read_char_position, hInv.1]
      have heq : readIndentLoop (fuel + 1) l = readIndentLoop fuel l.read_char := by
        simp only [readIndentLoop, if_pos hg]
      have hfuel' : l.read_char.input.length + 1 - l.read_char.position ≤ fuel := by
        rw [read_char_input, hpos']
        omega
      obtain ⟨h1, h2, h3, h4, h5⟩ := ih l.read_char hInv' hfuel'
      rw [read_char_input] at h2
      rw [hpos'] at h3
      refine ⟨by rw [heq]; exact h1, by rw [heq]; exact h2,
        by rw [heq]; omega, by rw [heq]; exact h4, ?_⟩
      intro i hi1 hi2
      rw [heq] at hi2
      rcases Nat.eq_or_lt_of_le hi1 with hip | hip
    -- first byte of the run: it is the guard byte itself
      · rw [← hip, ← hInv.2.1]
        exact hg
      · have := h5 i (by omega) hi2
        rw [read_char_input] at this
        exact this
    · have hg' : INDENT_CHARS.contains l.ch = false := by
        cases h : INDENT_CHARS.contains l.ch
        · rfl
        · exact absurd h hg
      rw [readIndentLoop_of_not (fuel + 1) l hg']
      refine ⟨hInv, rfl, le_refl _, hg', ?_⟩
      intro i hi1 hi2
      omega

lemma readHeadingLoop_of_not (fuel : Nat) (l : Lexer)
    (h : ¬ l.ch = 35) : readHeadingLoop fuel l = l := by
  cases fuel with
  | zero => rfl
  | succ fuel => simp [readHeadingLoop, h]

lemma readHeadingLoop_spec (fuel : Nat) :
    ∀ l : Lexer, Inv l → l.input.length + 1 - l.position ≤ fuel →
    Inv (readHeadingLoop fuel l) ∧
    (readHeadingLoop fuel l).input = l.input ∧
    l.position ≤ (readHeadingLoop fuel l).position ∧
    ¬ (readHeadingLoop fuel l).ch = 35 ∧
    (∀ i, l.position ≤ i → i < (readHeadingLoop fuel l).position →
      chAt l.input i = 35) := by
  induction fuel with
  | zero =>
    intro l hInv hfuel
    exact absurd hfuel (by have := hInv.2.2; omega)
  | succ fuel ih =>
    intro l hInv hfuel
    by_cases hg : l.ch = 35
    · have hch0 : l.ch ≠ 0 := by omega
      have hlt : l.position < l.input.length := inv_pos_lt l hInv hch0
      have hInv' : Inv l.read_char := inv_read_char l (by rw [hInv.1]; omega)
      have hpos' : l.read_char.position = l.position + 1 := by
        rw [read_char_position, hInv.1]
      have heq : readHeadingLoop (fuel + 1) l = readHeadingLoop fuel l.read_char := by
        simp [readHeadingLoop, hg]
      have hfuel' : l.read_char.input.length + 1 - l.read_char.position ≤ fuel := by
        rw [read_char_input, hpos']
        omega
      obtain ⟨h1, h2, h3, h4, h5⟩ := ih l.read_char hInv' hfuel'
      rw [read_char_input] at h2
      rw [hpos'] at h3
      refine ⟨by rw [heq]; exact h1, by rw [heq]; exact h2,
        by rw [heq]; omega, by rw [heq]; exact h4, ?_⟩
      intro i hi1 hi2
      rw [heq] at hi2
      rcases Nat.eq_or_lt_of_le hi1 with hip | hip
      · rw [← hip, ← hInv.2.1]
        exact hg
      · have := h5 i (by omega) hi2
        rw [read_char_input] at this
        exact this
    · rw [readHeadingLoop_of_not (fuel + 1) l hg]
      refine ⟨hInv, rfl, le_refl _, hg, ?_⟩
      intro i hi1 hi2
      omega

/-! ## One-token step specification -/

/-- Everything a successful `next_token` step guarantees: the invariant is
maintained, the buffer is untouched, the cursor strictly advances and stays in
bounds, the produced token's span is exactly the consumed slice, every
consumed byte is in the recognized alphabet, and run tokens are non-empty and
maximal. -/
def StepOk (l : Lexer) (t : Token) (l' : Lexer) : Prop :=
  Inv l' ∧ l'.input = l.input ∧ l.position < l'.position ∧
  Token.span t = (l.input.drop l.position).take (l'.position - l.position) ∧
  (Token.span t).length = l'.position - l.position ∧
  (∀ i, l.position ≤ i → i < l'.position → legalByte (chAt l.input i) = true) ∧
  (∀ s, t = Token.Indent s → s ≠ [] ∧
    INDENT_CHARS.contains (chAt l.input l'.position) = false) ∧
  (∀ n, t = Token.Heading n → 1 ≤ n ∧ chAt l.input l'.position ≠ 35)

lemma single_step (l : Lexer) (hInv : Inv l) (hlt : l.position < l.input.length)
    (t : Token) (hspan : Token.span t = [l.ch]) (hleg : legalByte l.ch = true)
    (hni : ∀ s, t ≠ Token.Indent s) (hnh : ∀ n, t ≠ Token.Heading n) :
    StepOk l t l.read_char := by
  have hpos' : l.read_char.position = l.position + 1 := by
    rw [read_char_position, hInv.1]
  have hInv' : Inv l.read_char := inv_read_char l (by rw [hInv.1]; omega)
  refine ⟨hInv', rfl, by omega, ?_, ?_, ?_, ?_, ?_⟩
  · rw [hspan, hpos', show l.position + 1 - l.position = 1 by omega,
      slice_single l.input l.position hlt, hInv.2.1, chAt_of_lt _ _ hlt]
  · rw [hspan, hpos']
    simp
  · intro i hi1 hi2
    rw [hpos'] at hi2
    rw [show i = l.position by omega, ← hInv.2.1]
    exact hleg
  · intro s hs
    exact absurd hs (hni s)
  · intro n hn
    exact absurd hn (hnh n)

lemma next_token_heading_eq (l : Lexer) (hg : l.ch = 35) :
    l.next_token = Except.ok l.read_heading := by
  unfold Lexer.next_token
  rw [hg]
  rfl

lemma next_token_indent_eq (l : Lexer) (hg : INDENT_CHARS.contains l.ch = true) :
    l.next_token = Except.ok l.read_indent := by
  have hch35 : l.ch ≠ 35 := by
    intro h35
    rw [h35] at hg
    exact absurd hg (by decide)
  have hsingles : l.ch ≠ 32 ∧ l.ch ≠ 91 ∧ l.ch ≠ 93 ∧ l.ch ≠ 41 ∧ l.ch ≠ 40 ∧
      l.ch ≠ 60 ∧ l.ch ≠ 62 ∧ l.ch ≠ 45 ∧ l.ch ≠ 43 ∧ l.ch ≠ 61 := by
    refine ⟨?_, ?_, ?_, ?_, ?_, ?_, ?_, ?_, ?_, ?_⟩ <;>
      · intro hv
        rw [hv] at hg
        exact absurd hg (by decide)
  obtain ⟨e32, e91, e93, e41, e40, e60, e62, e45, e43, e61⟩ := hsingles
  simp only [Lexer.next_token, if_neg e32, if_neg e91, if_neg e93, if_neg e41,
    if_neg e40, if_neg e60, if_neg e62, if_neg e45, if_neg e43, if_neg e61,
    if_neg hch35, if_pos hg]

lemma next_token_illegal (l : Lexer) (h : legalByte l.ch = false) :
    l.next_token = Except.error (Error.LexerErr (Token.display (Token.Illegal l.ch))) := by
  have hne : ∀ c : Nat, legalByte c = true → l.ch ≠ c := by
    intro c hc hec
    rw [hec, hc] at h
    exact Bool.noConfusion h
  have hindent : ¬ (INDENT_CHARS.contains l.ch = true) := by
    intro hc
    have hleg : legalByte l.ch = true := by
      unfold legalByte
      rw [hc, Bool.or_true]
    rw [hleg] at h
    exact Bool.noConfusion h
  unfold Lexer.next_token
  rw [if_neg (hne 32 (by decide)), if_neg (hne 91 (by decide)), if_neg (hne 93 (by decide)),
    if_neg (hne 41 (by decide)), if_neg (hne 40 (by decide)), if_neg (hne 60 (by decide)),
    if_neg (hne 62 (by decide)), if_neg (hne 45 (by decide)), if_neg (hne 43 (by decide)),
    if_neg (hne 61 (by decide)), if_neg (hne 35 (by decide)), if_neg hindent,
    if_neg (hne 0 (by decide)), if_neg (hne 10 (by decide)), if_neg (hne 46 (by decide)),
    if_neg (hne 95 (by decide)), if_neg (hne 96 (by decide)), if_neg (hne 92 (by decide)),
    if_neg (hne 42 (by decide)), if_neg (hne 58 (by decide)), if_neg (hne 59 (by decide)),
    if_neg (hne 47 (by decide)), if_neg (hne 9 (by decide))]

lemma heading_step (l : Lexer) (hInv : Inv l) (hg : l.ch = 35) :
    l.next_token = Except.ok l.read_heading ∧ StepOk l l.read_heading.1 l.read_heading.2 := by
  have hch0 : l.ch ≠ 0 := by omega
  have hlt : l.position < l.input.length := inv_pos_lt l hInv hch0
  have heq : l.next_token = Except.ok l.read_heading := next_token_heading_eq l hg
  have hloop : readHeadingLoop (l.input.length + 2) l =
      readHeadingLoop (l.input.length + 1) l.read_char := by
    simp only [show l.input.length + 2 = (l.input.length + 1) + 1 from rfl,
      readHeadingLoop, if_pos hg]
  have hInv' : Inv l.read_char := inv_read_char l (by rw [hInv.1]; omega)
  have hpos' : l.read_char.position = l.position + 1 := by
    rw [read_char_position, hInv.1]
  obtain ⟨h1, h2, h3, h4, h5⟩ := readHeadingLoop_spec (l.input.length + 1) l.read_char hInv'
    (by rw [read_char_input, hpos']; omega)
  rw [read_char_input] at h2
  rw [hpos'] at h3
  set lf := readHeadingLoop (l.input.length + 1) l.read_char with hlf
  -- the run consists of `#` bytes, from its first byte onwards
  have hrange : ∀ i, l.position ≤ i → i < lf.position → chAt l.input i = 35 := by
    intro i hi1 hi2
    rcases Nat.eq_or_lt_of_le hi1 with hip | hip
    · rw [← hip, ← hInv.2.1]
      exact hg
    · have := h5 i (by omega) hi2
      rw [read_char_input] at this
      exact this
  have hlfpos : lf.position ≤ l.input.length := by
    have := h1.2.2
    rw [h2] at this
    exact this
  have hrh : l.read_heading = (Token.Heading (lf.position - l.position), lf) := by
    simp only [Lexer.read_heading, hloop]
  refine ⟨heq, ?_⟩
  rw [hrh]
  show StepOk l (Token.Heading (lf.position - l.position)) lf
  refine ⟨h1, h2, by omega, ?_, ?_, ?_, ?_, ?_⟩
  · rw [show Token.span (Token.Heading (lf.position - l.position)) =
      List.replicate (lf.position - l.position) 35 from rfl]
    rw [slice_eq_replicate l.input l.position lf.position 35 hlfpos]
    intro i hi1 hi2
    rw [← chAt_of_lt _ _ (by omega)]
    exact hrange i hi1 hi2
  · simp [Token.span]
  · intro i hi1 hi2
    rw [hrange i hi1 hi2]
    decide
  · intro s hs
    exact absurd hs (by intro h; cases h)
  · intro n hn
    have hn' : n = lf.position - l.position := by
      cases hn
      rfl
    constructor
    · omega
    · rw [← h2, ← h1.2.1]
      exact h4

lemma indent_step (l : Lexer) (hInv : Inv l)
    (hg : INDENT_CHARS.contains l.ch = true) :
    l.next_token = Except.ok l.read_indent ∧ StepOk l l.read_indent.1 l.read_indent.2 := by
  have hch0 : l.ch ≠ 0 := by
    intro h0
    rw [h0, zero_not_indent] at hg
    exact Bool.false_ne_true hg
  have hlt : l.position < l.input.length := inv_pos_lt l hInv hch0
  have heq : l.next_token = Except.ok l.read_indent := next_token_indent_eq l hg
  have hloop : readIndentLoop (l.input.length + 2) l =
      readIndentLoop (l.input.length + 1) l.read_char := by
    simp only [show l.input.length + 2 = (l.input.length + 1) + 1 from rfl,
      readIndentLoop, if_pos hg]
  have hInv' : Inv l.read_char := inv_read_char l (by rw [hInv.1]; omega)
  have hpos' : l.read_char.position = l.position + 1 := by
    rw [read_char_position, hInv.1]
  obtain ⟨h1, h2, h3, h4, h5⟩ := readIndentLoop_spec (l.input.length + 1) l.read_char hInv'
    (by rw [read_char_input, hpos']; omega)
  rw [read_char_input] at h2
  rw [hpos'] at h3
  set lf := readIndentLoop (l.input.length + 1) l.read_char with hlf
  have hrange : ∀ i, l.position ≤ i → i < lf.position →
      INDENT_CHARS.contains (chAt l.input i) = true := by
    intro i hi1 hi2
    rcases Nat.eq_or_lt_of_le hi1 with hip | hip
    · rw [← hip, ← hInv.2.1]
      exact hg
    · have := h5 i (by omega) hi2
      rw [read_char_input] at this
      exact this
  have hlfpos : lf.position ≤ l.input.length := by
    have := h1.2.2
    rw [h2] at this
    exact this
  have hri : l.read_indent =
      (Token.Indent ((l.input.drop l.position).take (lf.position - l.position)), lf) := by
    simp only [Lexer.read_indent, hloop, h2]
  have hslen : ((l.input.drop l.position).take (lf.position - l.position)).length =
      lf.position - l.position :=
    length_slice l.input l.position lf.position (by omega) hlfpos
  refine ⟨heq, ?_⟩
  rw [hri]
  show StepOk l (Token.Indent ((l.input.drop l.position).take (lf.position - l.position))) lf
  refine ⟨h1, h2, by omega, rfl, hslen, ?_, ?_, ?_⟩
  · intro i hi1 hi2
    have hmem : chAt l.input i ∈ INDENT_CHARS := (contains_iff _ _).mp (hrange i hi1 hi2)
    simp [legalByte, hmem]
  · intro s hs
    have hs' : s = (l.input.drop l.position).take (lf.position - l.position) := by
      cases hs
      rfl
    constructor
    · rw [hs']
      intro hnil
      rw [hnil] at hslen
      simp at hslen
      omega
    · rw [← h2, ← h1.2.1]
      exact h4
  · intro n hn
    exact absurd hn (by intro h; cases h)

lemma step_of_eq (l : Lexer) (t₀ : Token) (l₀ : Lexer) (t : Token) (l' : Lexer)
    (heq : l.next_token = Except.ok (t₀, l₀)) (hok : l.next_token = Except.ok (t, l'))
    (hstep : StepOk l t₀ l₀) : StepOk l t l' := by
  rw [heq] at hok
  have h := Except.ok.inj hok
  have h1 : t₀ = t := congrArg Prod.fst h
  have h2 : l₀ = l' := congrArg Prod.snd h
  subst h1
  subst h2
  exact hstep

set_option maxHeartbeats 1000000 in
lemma next_token_ok_spec (l : Lexer) (hInv : Inv l) (hlt : l.position < l.input.length)
    (t : Token) (l' : Lexer) (hok : l.next_token = Except.ok (t, l')) : StepOk l t l' := by
  by_cases h32 : l.ch = 32
  · exact step_of_eq l Token.WhiteSpace l.read_char t l'
      (by unfold Lexer.next_token; rw [h32]; rfl) hok
      (single_step l hInv hlt Token.WhiteSpace (by rw [h32]; rfl) (by rw [h32]; decide)
        (fun s hh => Token.noConfusion hh) (fun n hh => Token.noConfusion hh))
  by_cases h91 : l.ch = 91
  · exact step_of_eq l Token.LeftSquare l.read_char t l'
      (by unfold Lexer.next_token; rw [h91]; rfl) hok
      (single_step l hInv hlt Token.LeftSquare (by rw [h91]; rfl) (by rw [h91]; decide)
        (fun s hh => Token.noConfusion hh) (fun n hh => Token.noConfusion hh))
  by_cases h93 : l.ch = 93
  · exact step_of_eq l Token.RightSquare l.read_char t l'
      (by unfold Lexer.next_token; rw [h93]; rfl) hok
      (single_step l hInv hlt Token.RightSquare (by rw [h93]; rfl) (by rw [h93]; decide)
        (fun s hh => Token.noConfusion hh) (fun n hh => Token.noConfusion hh))
  by_cases h41 : l.ch = 41
  · exact step_of_eq l Token.LeftParen l.read_char t l'
      (by unfold Lexer.next_token; rw [h41]; rfl) hok
      (single_step l hInv hlt Token.LeftParen (by rw [h41]; rfl) (by rw [h41]; decide)
        (fun s hh => Token.noConfusion hh) (fun n hh => Token.noConfusion hh))
  by_cases h40 : l.ch = 40
  · exact step_of_eq l Token.RightParen l.read_char t l'
      (by unfold Lexer.next_token; rw [h40]; rfl) hok
      (single_step l hInv hlt Token.RightParen (by rw [h40]; rfl) (by rw [h40]; decide)
        (fun s hh => Token.noConfusion hh) (fun n hh => Token.noConfusion hh))
  by_cases h60 : l.ch = 60
  · exact step_of_eq l Token.LeftAngle l.read_char t l'
      (by unfold Lexer.next_token; rw [h60]; rfl) hok
      (single_step l hInv hlt Token.LeftAngle (by rw [h60]; rfl) (by rw [h60]; decide)
        (fun s hh => Token.noConfusion hh) (fun n hh => Token.noConfusion hh))
  by_cases h62 : l.ch = 62
  · exact step_of_eq l Token.RightAngle l.read_char t l'
      (by unfold Lexer.next_token; rw [h62]; rfl) hok
      (single_step l hInv hlt Token.RightAngle (by rw [h62]; rfl) (by rw [h62]; decide)
        (fun s hh => Token.noConfusion hh) (fun n hh => Token.noConfusion hh))
  by_cases h45 : l.ch = 45
  · exact step_of_eq l Token.Dash l.read_char t l'
      (by unfold Lexer.next_token; rw [h45]; rfl) hok
      (single_step l hInv hlt Token.Dash (by rw [h45]; rfl) (by rw [h45]; decide)
        (fun s hh => Token.noConfusion hh) (fun n hh => Token.noConfusion hh))
  by_cases h43 : l.ch = 43
  · exact step_of_eq l Token.Plus l.read_char t l'
      (by unfold Lexer.next_token; rw [h43]; rfl) hok
      (single_step l hInv hlt Token.Plus (by rw [h43]; rfl) (by rw [h43]; decide)
        (fun s hh => Token.noConfusion hh) (fun n hh => Token.noConfusion hh))
  by_cases h61 : l.ch = 61
  · exact step_of_eq l Token.Equal l.read_char t l'
      (by unfold Lexer.next_token; rw [h61]; rfl) hok
      (single_step l hInv hlt Token.Equal (by rw [h61]; rfl) (by rw [h61]; decide)
        (fun s hh => Token.noConfusion hh) (fun n hh => Token.noConfusion hh))
  by_cases h35 : l.ch = 35
  · obtain ⟨heq, hstep⟩ := heading_step l hInv h35
    exact step_of_eq l l.read_heading.1 l.read_heading.2 t l' heq hok hstep
  by_cases hin : INDENT_CHARS.contains l.ch = true
  · obtain ⟨heq, hstep⟩ := indent_step l hInv hin
    exact step_of_eq l l.read_indent.1 l.read_indent.2 t l' heq hok hstep
  by_cases h0 : l.ch = 0
  · exact step_of_eq l Token.EOF l.read_char t l'
      (by unfold Lexer.next_token; rw [h0]; rfl) hok
      (single_step l hInv hlt Token.EOF (by rw [h0]; rfl) (by rw [h0]; decide)
        (fun s hh => Token.noConfusion hh) (fun n hh => Token.noConfusion hh))
  by_cases h10 : l.ch = 10
  · exact step_of_eq l Token.EOL l.read_char t l'
      (by unfold Lexer.next_token; rw [h10]; rfl) hok
      (single_step l hInv hlt Token.EOL (by rw [h10]; rfl) (by rw [h10]; decide)
        (fun s hh => Token.noConfusion hh) (fun n hh => Token.noConfusion hh))
  by_cases h46 : l.ch = 46
  · exact step_of_eq l Token.Dot l.read_char t l'
      (by unfold Lexer.next_token; rw [h46]; rfl) hok
      (single_step l hInv hlt Token.Dot (by rw [h46]; rfl) (by rw [h46]; decide)
        (fun s hh => Token.noConfusion hh) (fun n hh => Token.noConfusion hh))
  by_cases h95 : l.ch = 95
  · exact step_of_eq l Token.Undersocre l.read_char t l'
      (by unfold Lexer.next_token; rw [h95]; rfl) hok
      (single_step l hInv hlt Token.Undersocre (by rw [h95]; rfl) (by rw [h95]; decide)
        (fun s hh => Token.noConfusion hh) (fun n hh => Token.noConfusion hh))
  by_cases h96 : l.ch = 96
  · exact step_of_eq l Token.BackTick l.read_char t l'
      (by unfold Lexer.next_token; rw [h96]; rfl) hok
      (single_step l hInv hlt Token.BackTick (by rw [h96]; rfl) (by rw [h96]; decide)
        (fun s hh => Token.noConfusion hh) (fun n hh => Token.noConfusion hh))
  by_cases h92 : l.ch = 92
  · exact step_of_eq l Token.BackSlash l.read_char t l'
      (by unfold Lexer.next_token; rw [h92]; rfl) hok
      (single_step l hInv hlt Token.BackSlash (by rw [h92]; rfl) (by rw [h92]; decide)
        (fun s hh => Token.noConfusion hh) (fun n hh => Token.noConfusion hh))
  by_cases h42 : l.ch = 42
  · exact step_of_eq l Token.Asterisk l.read_char t l'
      (by unfold Lexer.next_token; rw [h42]; rfl) hok
      (single_step l hInv hlt Token.Asterisk (by rw [h42]; rfl) (by rw [h42]; decide)
        (fun s hh => Token.noConfusion hh) (fun n hh => Token.noConfusion hh))
  by_cases h58 : l.ch = 58
  · exact step_of_eq l Token.Colon l.read_char t l'
      (by unfold Lexer.next_token; rw [h58]; rfl) hok
      (single_step l hInv hlt Token.Colon (by rw [h58]; rfl) (by rw [h58]; decide)
        (fun s hh => Token.noConfusion hh) (fun n hh => Token.noConfusion hh))
  by_cases h59 : l.ch = 59
  · exact step_of_eq l Token.SemiColon l.read_char t l'
      (by unfold Lexer.next_token; rw [h59]; rfl) hok
      (single_step l hInv hlt Token.SemiColon (by rw [h59]; rfl) (by rw [h59]; decide)
        (fun s hh => Token.noConfusion hh) (fun n hh => Token.noConfusion hh))
  by_cases h47 : l.ch = 47
  · exact step_of_eq l Token.Slash l.read_char t l'
      (by unfold Lexer.next_token; rw [h47]; rfl) hok
      (single_step l hInv hlt Token.Slash (by rw [h47]; rfl) (by rw [h47]; decide)
        (fun s hh => Token.noConfusion hh) (fun n hh => Token.noConfusion hh))
  by_cases h9 : l.ch = 9
  · exact step_of_eq l Token.Tab l.read_char t l'
      (by unfold Lexer.next_token; rw [h9]; rfl) hok
      (single_step l hInv hlt Token.Tab (by rw [h9]; rfl) (by rw [h9]; decide)
        (fun s hh => Token.noConfusion hh) (fun n hh => Token.noConfusion hh))
  -- no arm matched: the byte is illegal and `next_token` errors, contradiction
  exfalso
  have hleg : legalByte l.ch = false := by
    cases hb : legalByte l.ch
    · rfl
    · exfalso
      simp only [legalByte, Bool.or_eq_true] at hb
      rcases hb with hb | hb
      · rw [contains_iff] at hb
        simp only [List.mem_cons, List.not_mem_nil, or_false] at hb
        rcases hb with h|h|h|h|h|h|h|h|h|h|h|h|h|h|h|h|h|h|h|h|h|h <;> omega
      · exact hin hb
  rw [next_token_illegal l hleg] at hok
  exact Except.noConfusion hok

lemma next_token_err_spec (l : Lexer) (e : Error)
    (herr : l.next_token = Except.error e) :
    legalByte l.ch = false ∧
    e = Error.LexerErr (Token.display (Token.Illegal l.ch)) := by
  cases hleg : legalByte l.ch
  · have heq := next_token_illegal l hleg
    rw [heq] at herr
    have h := Except.error.inj herr
    exact ⟨rfl, h.symm⟩
  · exfalso
    simp only [legalByte, Bool.or_eq_true] at hleg
    rcases hleg with hb | hb
    · rw [contains_iff] at hb
      simp only [List.mem_cons, List.not_mem_nil, or_false] at hb
      rcases hb with h|h|h|h|h|h|h|h|h|h|h|h|h|h|h|h|h|h|h|h|h|h
      all_goals
        unfold Lexer.next_token at herr
        rw [h] at herr
        exact Except.noConfusion herr
    · rw [next_token_indent_eq l hb] at herr
      exact Except.noConfusion herr

/-! ## The parse loop -/

lemma maxAt_nil (input : List Nat) (start : Nat) : MaxAt input start [] := by
  intro pre t suf hdecomp
  cases pre <;> simp at hdecomp

lemma maxAt_cons (input : List Nat) (pos pos' : Nat) (t₀ : Token) (ts' : List Token)
    (hlen : (Token.span t₀).length = pos' - pos) (hle : pos ≤ pos')
    (hInd : ∀ s, t₀ = Token.Indent s → s ≠ [] ∧
      INDENT_CHARS.contains (chAt input pos') = false)
    (hHead : ∀ n, t₀ = Token.Heading n → 1 ≤ n ∧ chAt input pos' ≠ 35)
    (hts : MaxAt input pos' ts') : MaxAt input pos (t₀ :: ts') := by
  intro pre t suf hdecomp
  cases pre with
  | nil =>
    simp only [List.nil_append] at hdecomp
    injection hdecomp with h1 h2
    subst h1
    constructor
    · intro s hs
      refine ⟨(hInd s hs).1, ?_⟩
      have hsl : s.length = pos' - pos := by
        rw [hs] at hlen
        exact hlen
      have hidx : pos + (((List.map Token.span ([] : List Token)).flatten).length + s.length)
          = pos' := by
        simp only [List.map_nil, List.flatten_nil, List.length_nil, Nat.zero_add]
        omega
      rw [hidx]
      exact (hInd s hs).2
    · intro n hn
      refine ⟨(hHead n hn).1, ?_⟩
      have hsl : n = pos' - pos := by
        rw [hn] at hlen
        simp only [Token.span, List.length_replicate] at hlen
        omega
      have hidx : pos + (((List.map Token.span ([] : List Token)).flatten).length + n)
          = pos' := by
        simp only [List.map_nil, List.flatten_nil, List.length_nil, Nat.zero_add]
        omega
      rw [hidx]
      exact (hHead n hn).2
  | cons x pre' =>
    simp only [List.cons_append] at hdecomp
    injection hdecomp with h1 h2
    subst h1
    have hrec := hts pre' t suf h2
    constructor
    · intro s hs
      refine ⟨(hrec.1 s hs).1, ?_⟩
      have hidx : pos + (((List.map Token.span (t₀ :: pre')).flatten).length + s.length)
          = pos' + (((List.map Token.span pre').flatten).length + s.length) := by
        simp only [List.map_cons, List.flatten_cons, List.length_append]
        omega
      rw [hidx]
      exact (hrec.1 s hs).2
    · intro n hn
      refine ⟨(hrec.2 n hn).1, ?_⟩
      have hidx : pos + (((List.map Token.span (t₀ :: pre')).flatten).length + n)
          = pos' + (((List.map Token.span pre').flatten).length + n) := by
        simp only [List.map_cons, List.flatten_cons, List.length_append]
        omega
      rw [hidx]
      exact (hrec.2 n hn).2

lemma parseLoop_spec (fuel : Nat) :
    ∀ l : Lexer, Inv l → l.input.length - l.position ≤ fuel →
    (∀ ts lf, parseLoop fuel l = Except.ok (ts, lf) →
      Inv lf ∧ lf.input = l.input ∧ l.input.length ≤ lf.position ∧
      ((ts.map Token.span).flatten = l.input.drop l.position) ∧
      (∀ i, l.position ≤ i → i < l.input.length → legalByte (chAt l.input i) = true) ∧
      MaxAt l.input l.position ts) ∧
    (∀ e, parseLoop fuel l = Except.error e →
      ∃ p, l.position ≤ p ∧ p < l.input.length ∧
        (∀ i, l.position ≤ i → i < p → legalByte (chAt l.input i) = true) ∧
        legalByte (chAt l.input p) = false ∧
        e = Error.LexerErr (Token.display (Token.Illegal (chAt l.input p)))) := by
  induction fuel with
  | zero =>
    intro l hInv hfuel
    have hpos : l.input.length ≤ l.position := by omega
    constructor
    · intro ts lf hok
      have h := Except.ok.inj hok
      have h1 : ts = [] := (congrArg Prod.fst h).symm
      have h2 : lf = l := (congrArg Prod.snd h).symm
      subst h1
      subst h2
      refine ⟨hInv, rfl, hpos, ?_, ?_, maxAt_nil _ _⟩
      · rw [List.drop_eq_nil_of_le hpos]
        rfl
      · intro i hi1 hi2
        omega
    · intro e herr
      exact Except.noConfusion herr
  | succ fuel ih =>
    intro l hInv hfuel
    by_cases hend : l.position ≥ l.input.length
    · have heq : parseLoop (fuel + 1) l = Except.ok ([], l) := by
        simp only [parseLoop, if_pos hend]
      constructor
      · intro ts lf hok
        rw [heq] at hok
        have h := Except.ok.inj hok
        have h1 : ts = [] := (congrArg Prod.fst h).symm
        have h2 : lf = l := (congrArg Prod.snd h).symm
        subst h1
        subst h2
        refine ⟨hInv, rfl, hend, ?_, ?_, maxAt_nil _ _⟩
        · rw [List.drop_eq_nil_of_le hend]
          rfl
        · intro i hi1 hi2
          omega
      · intro e herr
        rw [heq] at herr
        exact Except.noConfusion herr
    · have hlt : l.position < l.input.length := by omega
      cases hnt : l.next_token with
      | error e₀ =>
        obtain ⟨hleg0, he0⟩ := next_token_err_spec l e₀ hnt
        have heqE : parseLoop (fuel + 1) l = Except.error e₀ := by
          simp only [parseLoop, if_neg hend, hnt]
        constructor
        · intro ts lf hok
          rw [heqE] at hok
          exact Except.noConfusion hok
        · intro e herr
          rw [heqE] at herr
          have he : e₀ = e := Except.error.inj herr
          subst he
          refine ⟨l.position, le_refl _, hlt, ?_, ?_, ?_⟩
          · intro i hi1 hi2
            omega
          · rw [← hInv.2.1]
            exact hleg0
          · rw [← hInv.2.1]
            exact he0
      | ok tl' =>
        obtain ⟨t, l'⟩ := tl'
        obtain ⟨hInv', hinp', hadv, hspan, hslen, hlegal, hInd, hHead⟩ :=
          next_token_ok_spec l hInv hlt t l' hnt
        have hple : l'.position ≤ l.input.length := by
          have := hInv'.2.2
          rw [hinp'] at this
          exact this
        have hfuel' : l'.input.length - l'.position ≤ fuel := by
          rw [hinp']
          omega
        obtain ⟨ihok, iherr⟩ := ih l' hInv' hfuel'
        cases hpl : parseLoop fuel l' with
        | error e₀ =>
          have heqE : parseLoop (fuel + 1) l = Except.error e₀ := by
            simp only [parseLoop, if_neg hend, hnt, hpl]
          constructor
          · intro ts lf hok
            rw [heqE] at hok
            exact Except.noConfusion hok
          · intro e herr
            rw [heqE] at herr
            have he : e₀ = e := Except.error.inj herr
            subst he
            obtain ⟨p, hp1, hp2, hp3, hp4, hp5⟩ := iherr e₀ hpl
            rw [hinp'] at hp2 hp3 hp4 hp5
            refine ⟨p, by omega, hp2, ?_, hp4, hp5⟩
            intro i hi1 hi2
            rcases Nat.lt_or_ge i l'.position with hip | hip
            · exact hlegal i hi1 hip
            · exact hp3 i hip hi2
        | ok tslf =>
          obtain ⟨ts', lf⟩ := tslf
          obtain ⟨ih1, ih2, ih3, ih4, ih5, ih6⟩ := ihok ts' lf hpl
          rw [hinp'] at ih2 ih3 ih4 ih5 ih6
          have heqO : parseLoop (fuel + 1) l = Except.ok (t :: ts', lf) := by
            simp only [parseLoop, if_neg hend, hnt, hpl]
          constructor
          · intro ts lf₀ hok
            rw [heqO] at hok
            have h := Except.ok.inj hok
            have h1 : ts = t :: ts' := (congrArg Prod.fst h).symm
            have h2 : lf₀ = lf := (congrArg Prod.snd h).symm
            subst h1
            subst h2
            refine ⟨ih1, ih2, ih3, ?_, ?_, ?_⟩
            · simp only [List.map_cons, List.flatten_cons]
              rw [ih4, hspan]
              exact slice_append_drop l.input l.position l'.position (by omega)
            · intro i hi1 hi2
              rcases Nat.lt_or_ge i l'.position with hip | hip
              · exact hlegal i hi1 hip
              · exact ih5 i hip hi2
            · exact maxAt_cons l.input l.position l'.position t ts' hslen
                (by omega) hInd hHead ih6
          · intro e herr
            rw [heqO] at herr
            exact Except.noConfusion herr

/-! ## Assembling the entry point -/

lemma chAt_eq_getD (input : List Nat) (i : Nat) : chAt input i = input.getD i 0 := by
  unfold chAt
  split
  · rename_i hge
    rw [List.getD_eq_default _ _ hge]
  · rfl

lemma next_token_at_nul (l : Lexer) (h : l.ch = 0) :
    l.next_token = Except.ok (Token.EOF, l.read_char) := by
  unfold Lexer.next_token
  rw [h]
  rfl

lemma parse_eq_of_ch_zero (l : Lexer) (input : List Nat) (h : l.ch = 0) :
    l.parse input =
      parseLoop ((10 :: input).length + 1)
        (Lexer.read_char { l with input := 10 :: input }) := by
  simp only [Lexer.parse]
  rw [next_token_at_nul { l with input := 10 :: input } h]
  rfl

lemma parse_new_eq (input : List Nat) :
    Lexer.new.parse input =
      parseLoop ((10 :: input).length + 1) ⟨0, 1, 10, 10 :: input⟩ := rfl

lemma inv_start (input : List Nat) : Inv ⟨0, 1, 10, 10 :: input⟩ := by
  refine ⟨rfl, ?_, by simp⟩
  rw [chAt_eq_getD]
  simp

lemma parse_new_ok (input : List Nat) (ts : List Token) (lf : Lexer)
    (h : Lexer.new.parse input = Except.ok (ts, lf)) :
    Inv lf ∧ lf.input = 10 :: input ∧ (10 :: input).length ≤ lf.position ∧
    (ts.map Token.span).flatten = 10 :: input ∧
    (∀ i, i < (10 :: input).length → legalByte (chAt (10 :: input) i) = true) ∧
    MaxAt (10 :: input) 0 ts := by
  rw [parse_new_eq input] at h
  obtain ⟨hok, _⟩ := parseLoop_spec ((10 :: input).length + 1) ⟨0, 1, 10, 10 :: input⟩
    (inv_start input) (by simp)
  obtain ⟨h1, h2, h3, h4, h5, h6⟩ := hok ts lf h
  refine ⟨h1, h2, h3, ?_, fun i hi => h5 i (Nat.zero_le i) hi, h6⟩
  simpa using h4

lemma parse_new_err (input : List Nat) (e : Error)
    (h : Lexer.new.parse input = Except.error e) :
    ∃ p, p < (10 :: input).length ∧
      (∀ i, i < p → legalByte (chAt (10 :: input) i) = true) ∧
      legalByte (chAt (10 :: input) p) = false ∧
      e = Error.LexerErr (Token.display (Token.Illegal (chAt (10 :: input) p))) := by
  rw [parse_new_eq input] at h
  obtain ⟨_, herr⟩ := parseLoop_spec ((10 :: input).length + 1) ⟨0, 1, 10, 10 :: input⟩
    (inv_start input) (by simp)
  obtain ⟨p, hp1, hp2, hp3, hp4, hp5⟩ := herr e h
  exact ⟨p, hp2, fun i hi => hp3 i (Nat.zero_le i) hi, hp4, hp5⟩

lemma tokenize_eq_ok (input : List Nat) (ts : List Token) (lf : Lexer)
    (hp : Lexer.new.parse input = Except.ok (ts, lf)) : tokenize input = Except.ok ts := by
  unfold tokenize
  rw [hp]

lemma tokenize_eq_err (input : List Nat) (e : Error)
    (hp : Lexer.new.parse input = Except.error e) : tokenize input = Except.error e := by
  unfold tokenize
  rw [hp]

lemma tokenize_ok_elim (input : List Nat) (ts : List Token)
    (h : tokenize input = Except.ok ts) :
    ∃ lf, Lexer.new.parse input = Except.ok (ts, lf) := by
  cases hp : Lexer.new.parse input with
  | error e =>
    rw [tokenize_eq_err input e hp] at h
    exact Except.noConfusion h
  | ok p =>
    obtain ⟨ts', lf⟩ := p
    rw [tokenize_eq_ok input ts' lf hp] at h
    have hts : ts' = ts := Except.ok.inj h
    subst hts
    exact ⟨lf, rfl⟩

lemma tokenize_err_elim (input : List Nat) (e : Error)
    (h : tokenize input = Except.error e) :
    Lexer.new.parse input = Except.error e := by
  cases hp : Lexer.new.parse input with
  | error e₀ =>
    rw [tokenize_eq_err input e₀ hp] at h
    have he : e₀ = e := Except.error.inj h
    subst he
    rfl
  | ok p =>
    obtain ⟨ts', lf⟩ := p
    rw [tokenize_eq_ok input ts' lf hp] at h
    exact Except.noConfusion h

/-! ## Claim theorems -/

/-- C1 (counterexample): the claim `tokenize("") = Ok([EOL, EOF])` is false:
the empty input tokenizes to `Ok([EOL])` with no trailing `EOF`, because the
parse loop stops as soon as `position` reaches the buffer length. -/
theorem tokenize_empty_no_eof :
    tokenize [] = Except.ok [Token.EOL] ∧
    tokenize [] ≠ Except.ok [Token.EOL, Token.EOF] := by
  constructor
  · rfl
  · intro h
    rw [show tokenize [] = Except.ok [Token.EOL] from rfl] at h
    have hl := Except.ok.inj h
    exact absurd hl (by decide)

/-- C1 (amended): tokenizing the empty input succeeds and returns exactly the
one-token sequence `[EOL]`, produced by the synthetic prepended newline; no
`EOF` token is appended at the end of the scan. -/
theorem tokenize_empty_eq : tokenize [] = Except.ok [Token.EOL] := rfl

/-- C2 (counterexample): for the input `"# Test + --243a,.p"` the claimed
sequence ends in an `EOF` token, but the scanner returns the same sequence
without that final `EOF`. -/
theorem tokenize_scenario_no_eof :
    tokenize [35, 32, 84, 101, 115, 116, 32, 43, 32, 45, 45, 50, 52, 51, 97, 44, 46, 112] =
      Except.ok [Token.EOL, Token.Heading 1, Token.WhiteSpace,
        Token.Indent [84, 101, 115, 116], Token.WhiteSpace, Token.Plus, Token.WhiteSpace,
        Token.Dash, Token.Dash, Token.Indent [50, 52, 51, 97, 44], Token.Dot,
        Token.Indent [112]] ∧
    tokenize [35, 32, 84, 101, 115, 116, 32, 43, 32, 45, 45, 50, 52, 51, 97, 44, 46, 112] ≠
      Except.ok [Token.EOL, Token.Heading 1, Token.WhiteSpace,
        Token.Indent [84, 101, 115, 116], Token.WhiteSpace, Token.Plus, Token.WhiteSpace,
        Token.Dash, Token.Dash, Token.Indent [50, 52, 51, 97, 44], Token.Dot,
        Token.Indent [112], Token.EOF] := by
  constructor
  · rfl
  · intro h
    rw [show tokenize [35, 32, 84, 101, 115, 116, 32, 43, 32, 45, 45, 50, 52, 51, 97,
        44, 46, 112] =
      Except.ok [Token.EOL, Token.Heading 1, Token.WhiteSpace,
        Token.Indent [84, 101, 115, 116], Token.WhiteSpace, Token.Plus, Token.WhiteSpace,
        Token.Dash, Token.Dash, Token.Indent [50, 52, 51, 97, 44], Token.Dot,
        Token.Indent [112]] from rfl] at h
    have hl := Except.ok.inj h
    exact absurd hl (by decide)

/-- C2 (amended): the input `"# Test + --243a,.p"` (bytes) tokenizes, after the
leading synthetic `EOL`, to `Heading(1)`, `WhiteSpace`, `Indent("Test")`,
`WhiteSpace`, `Plus`, `WhiteSpace`, `Dash`, `Dash`, `Indent("243a,")`, `Dot`,
`Indent("p")`, with no trailing `EOF` token. -/
theorem tokenize_scenario_eq :
    tokenize [35, 32, 84, 101, 115, 116, 32, 43, 32, 45, 45, 50, 52, 51, 97, 44, 46, 112] =
      Except.ok [Token.EOL, Token.Heading 1, Token.WhiteSpace,
        Token.Indent [84, 101, 115, 116], Token.WhiteSpace, Token.Plus, Token.WhiteSpace,
        Token.Dash, Token.Dash, Token.Indent [50, 52, 51, 97, 44], Token.Dot,
        Token.Indent [112]] := rfl

/-- C3: on every input where `tokenize` succeeds, concatenating the byte spans
of the returned tokens (in order) reconstructs exactly the effective buffer
`"\n" ++ input`, so every byte is covered by exactly one token with no gaps
and no overlaps. -/
theorem tokenize_coverage (input : List Nat) (ts : List Token)
    (h : tokenize input = Except.ok ts) :
    (ts.map Token.span).flatten = 10 :: input := by
  obtain ⟨lf, hp⟩ := tokenize_ok_elim input ts h
  exact (parse_new_ok input ts lf hp).2.2.2.1

/-- C3 (witness): coverage evaluated on the concrete input `"a"`. -/
theorem tokenize_coverage_witness :
    (([Token.EOL, Token.Indent [97]].map Token.span).flatten : List Nat) = 10 :: [97] :=
  tokenize_coverage [97] [Token.EOL, Token.Indent [97]] rfl

/-- C4 (counterexample): `parse` does not reset the cursor fields, so a
`Scanner` instance is not reusable: parsing `""` twice on the same instance
returns `Ok([EOL])` the first time and `Ok([])` the second time. -/
theorem reuse_changes_result :
    Lexer.new.parse [] = Except.ok ([Token.EOL], ⟨1, 2, 0, [10]⟩) ∧
    Lexer.parse ⟨1, 2, 0, [10]⟩ [] = Except.ok ([], ⟨2, 3, 0, [10]⟩) ∧
    ([Token.EOL] : List Token) ≠ [] := by
  refine ⟨rfl, rfl, by decide⟩

/-- C4 (amended): `tokenize` is a pure function of the input (fresh-instance
determinism), but instance reuse does not reproduce the first result: after
any successful `parse`, a second `parse` of the same input on the same
instance returns the empty token sequence, because the cursor is already past
the end of the buffer. -/
theorem reuse_second_parse_empty (input : List Nat) (ts : List Token) (l1 : Lexer)
    (h : Lexer.new.parse input = Except.ok (ts, l1)) :
    ∃ l2, l1.parse input = Except.ok (([] : List Token), l2) := by
  obtain ⟨hInv1, hinp, hlen, _, _, _⟩ := parse_new_ok input ts l1 h
  have hpos : l1.position = (10 :: input).length := by
    have hle := hInv1.2.2
    rw [hinp] at hle
    omega
  have hch : l1.ch = 0 := by
    have hc := hInv1.2.1
    rw [hinp, hpos] at hc
    rw [hc]
    exact chAt_of_ge _ _ (le_refl _)
  have hrp : l1.read_position = (10 :: input).length + 1 := by
    rw [hInv1.1, hpos]
  refine ⟨Lexer.read_char { l1 with input := 10 :: input }, ?_⟩
  rw [parse_eq_of_ch_zero l1 input hch]
  have hge : (Lexer.read_char { l1 with input := 10 :: input }).position ≥
      (Lexer.read_char { l1 with input := 10 :: input }).input.length := by
    rw [read_char_position, read_char_input]
    show ({ l1 with input := 10 :: input } : Lexer).read_position ≥ (10 :: input).length
    show l1.read_position ≥ (10 :: input).length
    omega
  simp only [parseLoop, if_pos hge]

/-- C4 (amended, witness): reusing the instance left by parsing `""`. -/
theorem reuse_second_parse_empty_witness :
    ∃ l2, Lexer.parse ⟨1, 2, 0, [10]⟩ [] = Except.ok (([] : List Token), l2) :=
  reuse_second_parse_empty [] [Token.EOL] ⟨1, 2, 0, [10]⟩ rfl

/-- C5: any input containing a byte outside the recognized alphabet makes
`tokenize` fail: the returned value is an error (no token sequence), its
payload names the first such byte, and every byte before that one is legal. -/
theorem tokenize_illegal_fail_fast (input : List Nat)
    (h : ∃ b ∈ input, legalByte b = false) :
    ∃ j, j < input.length ∧ legalByte (input.getD j 0) = false ∧
      (∀ k, k < j → legalByte (input.getD k 0) = true) ∧
      tokenize input = Except.error
        (Error.LexerErr (Token.display (Token.Illegal (input.getD j 0)))) := by
  cases hp : Lexer.new.parse input with
  | ok p =>
    exfalso
    obtain ⟨ts, lf⟩ := p
    obtain ⟨_, _, _, _, hleg, _⟩ := parse_new_ok input ts lf hp
    obtain ⟨b, hbmem, hbbad⟩ := h
    obtain ⟨j, hj, hjb⟩ := List.mem_iff_getElem.mp hbmem
    have hlegj := hleg (j + 1) (by simp; omega)
    rw [chAt_eq_getD, List.getD_cons_succ, List.getD_eq_getElem input 0 hj, hjb] at hlegj
    rw [hbbad] at hlegj
    exact Bool.noConfusion hlegj
  | error e =>
    obtain ⟨p, hp2, hp3, hp4, hp5⟩ := parse_new_err input e hp
    have hp0 : p ≠ 0 := by
      intro h0
      rw [h0, chAt_eq_getD, List.getD_cons_zero] at hp4
      exact absurd hp4 (by decide)
    obtain ⟨j, rfl⟩ : ∃ j, p = j + 1 := ⟨p - 1, by omega⟩
    rw [chAt_eq_getD, List.getD_cons_succ] at hp4 hp5
    refine ⟨j, ?_, hp4, ?_, ?_⟩
    · simp at hp2
      omega
    · intro k hk
      have hkleg := hp3 (k + 1) (by omega)
      rw [chAt_eq_getD, List.getD_cons_succ] at hkleg
      exact hkleg
    · rw [tokenize_eq_err input e hp, hp5]

/-- C5 (witness): the single-byte input `"{"` (byte 123). -/
theorem tokenize_illegal_fail_fast_witness :
    ∃ j, j < ([123] : List Nat).length ∧ legalByte (([123] : List Nat).getD j 0) = false ∧
      (∀ k, k < j → legalByte (([123] : List Nat).getD k 0) = true) ∧
      tokenize [123] = Except.error
        (Error.LexerErr (Token.display (Token.Illegal (([123] : List Nat).getD j 0)))) :=
  tokenize_illegal_fail_fast [123] ⟨123, by decide, by decide⟩

/-- C6 (code bug): the source maps byte `)` (41) to `LeftParen` and byte `(`
(40) to `RightParen`, the reverse of what the spec (and the other bracket
pairs, shown here mapping straight) clearly intend. -/
theorem paren_tokens_swapped :
    tokenize [40] = Except.ok [Token.EOL, Token.RightParen] ∧
    tokenize [41] = Except.ok [Token.EOL, Token.LeftParen] ∧
    tokenize [91] = Except.ok [Token.EOL, Token.LeftSquare] ∧
    tokenize [93] = Except.ok [Token.EOL, Token.RightSquare] ∧
    tokenize [60] = Except.ok [Token.EOL, Token.LeftAngle] ∧
    tokenize [62] = Except.ok [Token.EOL, Token.RightAngle] :=
  ⟨rfl, rfl, rfl, rfl, rfl, rfl⟩

/-- C7 (counterexample): the textual rendering of a token is never exactly the
bare label the claim states: every rendering begins with the prefix
`"Token -> "`, e.g. `WhiteSpace` renders as `"Token -> WhiteSpace"`. -/
theorem display_has_prefix :
    Token.display Token.WhiteSpace = "Token -> WhiteSpace" ∧
    Token.display Token.WhiteSpace ≠ "WhiteSpace" := by
  constructor
  · rfl
  · decide

/-- C7 (amended): each token renders as `"Token -> "` followed by its stable
label — `"Heading: #<n>"`, `"Indent: <text> "`, `"Illegal: <byte> "`, or the
fixed variant name — and this full textual form is exactly the payload of the
lexer error produced for an illegal byte. -/
theorem display_table :
    (∀ n : Nat, Token.display (Token.Heading n) = "Token -> Heading: #" ++ toString n) ∧
    (∀ s : List Nat,
      Token.display (Token.Indent s) = "Token -> Indent: " ++ bytesToString s ++ " ") ∧
    (∀ b : Nat, Token.display (Token.Illegal b) = "Token -> Illegal: " ++ toString b ++ " ") ∧
    Token.display Token.WhiteSpace = "Token -> WhiteSpace" ∧
    Token.display Token.Dash = "Token -> Dash" ∧
    Token.display Token.LeftSquare = "Token -> LeftSquare" ∧
    (∀ l : Lexer, legalByte l.ch = false →
      l.next_token = Except.error (Error.LexerErr (Token.display (Token.Illegal l.ch)))) := by
  refine ⟨?_, ?_, ?_, rfl, rfl, rfl, next_token_illegal⟩
  · intro n
    show ("Token -> " : String) ++ ("Heading: #" ++ toString n) =
      "Token -> Heading: #" ++ toString n
    rw [← String.append_assoc]
    exact congrArg (fun x : String => x ++ toString n) (by decide)
  · intro s
    show ("Token -> " : String) ++ ("Indent: " ++ bytesToString s ++ " ") =
      "Token -> Indent: " ++ bytesToString s ++ " "
    rw [← String.append_assoc, ← String.append_assoc]
    exact congrArg (fun x : String => x ++ bytesToString s ++ " ") (by decide)
  · intro b
    show ("Token -> " : String) ++ ("Illegal: " ++ toString b ++ " ") =
      "Token -> Illegal: " ++ toString b ++ " "
    rw [← String.append_assoc, ← String.append_assoc]
    exact congrArg (fun x : String => x ++ toString b ++ " ") (by decide)

/-- C7 (amended, witness): the error for the illegal byte `{` (123) carries
the full rendering of `Illegal(123)`. -/
theorem display_table_witness :
    Lexer.next_token ⟨0, 0, 123, []⟩ =
      Except.error (Error.LexerErr (Token.display (Token.Illegal 123))) :=
  display_table.2.2.2.2.2.2 ⟨0, 0, 123, []⟩ (by decide)

/-- C8: in every successful token sequence, runs are non-empty and maximal:
each `Indent` carries at least one byte and the buffer byte just past its
span (if any) is not word-class; each `Heading n` has `n ≥ 1` and the byte
just past its `#`-run (if any) is not `#`. -/
theorem tokenize_runs_maximal (input : List Nat) (ts : List Token)
    (h : tokenize input = Except.ok ts) : MaxAt (10 :: input) 0 ts := by
  obtain ⟨lf, hp⟩ := tokenize_ok_elim input ts h
  exact (parse_new_ok input ts lf hp).2.2.2.2.2

/-- C8 (witness): run maximality on the concrete input `"# a"`. -/
theorem tokenize_runs_maximal_witness :
    MaxAt (10 :: [35, 32, 97]) 0
      [Token.EOL, Token.Heading 1, Token.WhiteSpace, Token.Indent [97]] :=
  tokenize_runs_maximal [35, 32, 97]
    [Token.EOL, Token.Heading 1, Token.WhiteSpace, Token.Indent [97]] rfl

/-- C9: `tokenize` terminates on every input within one call: it returns
either an error or a finite token sequence, and in the success case the final
cursor position has reached the end of the effective buffer (the loop's exit
condition), because every classification step strictly advances the cursor. -/
theorem tokenize_terminates (input : List Nat) :
    (∃ e, Lexer.new.parse input = Except.error e) ∨
    (∃ ts lf, Lexer.new.parse input = Except.ok (ts, lf) ∧
      lf.input.length ≤ lf.position) := by
  cases h : Lexer.new.parse input with
  | error e => exact Or.inl ⟨e, rfl⟩
  | ok p =>
    obtain ⟨ts, lf⟩ := p
    obtain ⟨_, h2, h3, _, _, _⟩ := parse_new_ok input ts lf h
    right
    refine ⟨ts, lf, rfl, ?_⟩
    rw [h2]
    exact h3

/-- C10: an interior NUL byte is legal: whenever the current byte is NUL the
scanner classifies it as an `EOF` token and advances past it via `read_char`,
so scanning continues and `EOF` can appear mid-sequence — as in
`tokenize("a\x00b")`, whose result contains `EOF` between the two `Indent`
tokens. -/
theorem nul_is_eof_mid_sequence :
    (∀ l : Lexer, l.ch = 0 →
      l.next_token = Except.ok (Token.EOF, l.read_char) ∧
      l.read_char.read_position = l.read_position + 1) ∧
    legalByte 0 = true ∧
    tokenize [97, 0, 98] =
      Except.ok [Token.EOL, Token.Indent [97], Token.EOF, Token.Indent [98]] := by
  refine ⟨?_, by decide, rfl⟩
  intro l h
  exact ⟨next_token_at_nul l h, rfl⟩

/-- C10 (witness): the NUL classification applied at a concrete state. -/
theorem nul_is_eof_mid_sequence_witness :
    Lexer.next_token ⟨5, 6, 0, [1, 2, 3]⟩ =
      Except.ok (Token.EOF, Lexer.read_char ⟨5, 6, 0, [1, 2, 3]⟩) ∧
    (Lexer.read_char ⟨5, 6, 0, [1, 2, 3]⟩).read_position = 7 :=
  nul_is_eof_mid_sequence.1 ⟨5, 6, 0, [1, 2, 3]⟩ rfl

end MdToTui
